import Mathlib

/-!
# ruby_types: type resolution of protoc-gen-activemodel

A shallow embedding of `ruby_types/ruby_types.go` together with the library
functions it calls (`strings.Split`, `strings.Join`, `strings.Replace`,
`strings.Title`, `pgs.Name.UpperCamelCase`, `pgs.ProtoType.IsInt`,
`pgs.ProtoType.IsNumeric`).

Conventions of the embedding.

* A Go `string` is a Lean `String`: strings are taken to be valid UTF-8, so a
  string is its sequence of runes.
* The classification of runes outside ASCII (`unicode.IsUpper` and friends)
  comes from the Unicode tables of the Go runtime.  Those tables are a
  parameter `U : unicode.Tables` of the embedding; on ASCII runes the Go
  functions take a fast path that is written out here.
* A Go interface value is the record of what its methods return.
* `log.Panicf` and a method call on a nil interface end the call with a
  panic: fallible functions return `Except Panic String`.
-/

/-! ## Runes -/

namespace unicode

/-- Tables of the Go `unicode` package, consulted for runes above `MaxASCII`. -/
structure Tables where
  IsUpper : Char → Bool
  IsTitle : Char → Bool
  IsDigit : Char → Bool
  IsLetter : Char → Bool
  IsSpace : Char → Bool
  ToTitle : Char → Char

/-- The constant `unicode.MaxASCII`. -/
def MaxASCII : Nat := 0x7F

/-- Rune `r` lies in the closed range `lo..hi`. -/
def inRange (lo hi r : Char) : Bool := decide (lo.toNat ≤ r.toNat) && decide (r.toNat ≤ hi.toNat)

/-- Model of `unicode.IsUpper`: `A..Z` on ASCII, the table above it. -/
def IsUpper (U : Tables) (r : Char) : Bool :=
  if r.toNat ≤ MaxASCII then inRange 'A' 'Z' r else U.IsUpper r

/-- Model of `unicode.IsTitle`: no ASCII rune is a title-case letter. -/
def IsTitle (U : Tables) (r : Char) : Bool :=
  if r.toNat ≤ MaxASCII then false else U.IsTitle r

/-- Model of `unicode.IsDigit`: `0..9` on ASCII, the table above it. -/
def IsDigit (U : Tables) (r : Char) : Bool :=
  if r.toNat ≤ MaxASCII then inRange '0' '9' r else U.IsDigit r

/-- Model of `unicode.ToTitle`: on ASCII, `a..z` is shifted to `A..Z` and every
other rune is kept; above ASCII the table decides. -/
def ToTitle (U : Tables) (r : Char) : Char :=
  if r.toNat ≤ MaxASCII then
    if inRange 'a' 'z' r then Char.ofNat (r.toNat - ('a'.toNat - 'A'.toNat)) else r
  else U.ToTitle r

/-- A table that classifies no rune and maps every rune to itself; it serves
to evaluate the definitions on ASCII inputs. -/
def plain : Tables :=
  { IsUpper := fun _ => false, IsTitle := fun _ => false, IsDigit := fun _ => false,
    IsLetter := fun _ => false, IsSpace := fun _ => false, ToTitle := fun r => r }

end unicode

/-! ## Package `strings` -/

namespace strings

/-- Model of `strings.isSeparator`: ASCII alphanumerics and underscore are
not separators, every other ASCII rune is; above ASCII letters and digits are
not separators and otherwise only spaces are. -/
def isSeparator (U : unicode.Tables) (r : Char) : Bool :=
  if r.toNat ≤ 0x7F then
    if unicode.inRange '0' '9' r then false
    else if unicode.inRange 'a' 'z' r then false
    else if unicode.inRange 'A' 'Z' r then false
    else if r = '_' then false
    else true
  else if U.IsLetter r || U.IsDigit r then false
  else U.IsSpace r

/-- The closure of `strings.Title` mapped over the runes: `prev` is the rune
seen before. -/
def titleRunes (U : unicode.Tables) : Char → List Char → List Char
  | _, [] => []
  | prev, r :: rs =>
    (if isSeparator U prev then unicode.ToTitle U r else r) :: titleRunes U r rs

/-- Model of `strings.Title`: the first rune of every word is mapped to its
title case; `prev` starts as a space. -/
def Title (U : unicode.Tables) (s : String) : String :=
  ⟨titleRunes U ' ' s.data⟩

/-- Model of `strings.Join`: the elements with `sep` between them. -/
def Join : List String → String → String
  | [], _ => ""
  | e :: es, sep => es.foldl (fun b s => b ++ sep ++ s) e

/-- Scan of `strings.Split` for a non-empty separator: `skip` counts the runes
of a separator still to be consumed, `cur` is the piece being read. -/
def splitRunes (sep : List Char) : List Char → Nat → List Char → List (List Char)
  | [], _, cur => [cur]
  | _ :: rs, skip + 1, cur => splitRunes sep rs skip cur
  | r :: rs, 0, cur =>
    if sep.isPrefixOf (r :: rs) then cur :: splitRunes sep rs (sep.length - 1) []
    else splitRunes sep rs 0 (cur ++ [r])

/-- Model of `strings.Split(s, sep)` for a non-empty `sep`: the pieces of `s`
between the leftmost non-overlapping occurrences of `sep`. -/
def Split (s sep : String) : List String :=
  (splitRunes sep.data s.data 0 []).map String.mk

/-- Scan of `strings.Replace` for a non-empty `old` and `n < 0`. -/
def replaceRunes (old new : List Char) : List Char → Nat → List Char
  | [], _ => []
  | _ :: rs, skip + 1 => replaceRunes old new rs skip
  | r :: rs, 0 =>
    if old.isPrefixOf (r :: rs) then new ++ replaceRunes old new rs (old.length - 1)
    else r :: replaceRunes old new rs 0

/-- Model of `strings.Replace(s, old, new, -1)` for a non-empty `old`: every
non-overlapping occurrence of `old`, leftmost first, becomes `new`. -/
def ReplaceAll (s old new : String) : String :=
  ⟨replaceRunes old.data new.data s.data 0⟩

end strings

/-! ## Package `pgs` (protoc-gen-star) -/

namespace pgs

/-- The type `pgs.ProtoType`: the numeric field type of a field descriptor. -/
abbrev ProtoType := Int

def DoubleT : ProtoType := 1
def FloatT : ProtoType := 2
def Int64T : ProtoType := 3
def UInt64T : ProtoType := 4
def Int32T : ProtoType := 5
def Fixed64T : ProtoType := 6
def Fixed32T : ProtoType := 7
def BoolT : ProtoType := 8
def StringT : ProtoType := 9
def GroupT : ProtoType := 10
def MessageT : ProtoType := 11
def BytesT : ProtoType := 12
def UInt32T : ProtoType := 13
def EnumT : ProtoType := 14
def SFixed32 : ProtoType := 15
def SFixed64 : ProtoType := 16
def SInt32 : ProtoType := 17
def SInt64 : ProtoType := 18

/-- Model of `ProtoType.IsInt`: true on the ten integer types, false on
everything else (enums included). -/
def ProtoType.IsInt (pt : ProtoType) : Bool :=
  pt == Int64T || pt == UInt64T || pt == SFixed64 || pt == SInt64 || pt == Fixed64T ||
  pt == Int32T || pt == UInt32T || pt == SFixed32 || pt == SInt32 || pt == Fixed32T

/-- Model of `ProtoType.IsNumeric`: double, float or an integer type. -/
def ProtoType.IsNumeric (pt : ProtoType) : Bool :=
  pt == DoubleT || pt == FloatT || ProtoType.IsInt pt

/-- State of the camel-case scan of `Name.Split`. -/
structure SplitState where
  parts : List String
  buf : String
  capt : Bool
  lodash : Bool
  num : Bool

/-- One iteration of the camel-case scan of `Name.Split` on rune `r`;
`buf.Len()` is the length of the buffer in bytes.  The flag `lodash` is set by
a leading underscore and is kept from then on. -/
def splitStep (U : unicode.Tables) (st : SplitState) (r : Char) : SplitState :=
  let uc := unicode.IsUpper U r || unicode.IsTitle U r
  let dg := unicode.IsDigit U r
  let lodash := if r = '_' ∧ st.buf.utf8ByteSize = 0 ∧ st.parts.length = 0 then true else st.lodash
  let flushed : List String × String :=
    if uc ∧ ¬ st.capt ∧ st.buf.utf8ByteSize > 0 ∧ ¬ lodash then
      (st.parts ++ [st.buf], "")
    else if dg ∧ ¬ st.num ∧ st.buf.utf8ByteSize > 0 ∧ ¬ lodash then
      (st.parts ++ [st.buf], "")
    else if ¬ uc ∧ st.capt ∧ st.buf.utf8ByteSize > 1 then
      if st.buf.utf8ByteSize > 1 ∧ (st.buf.utf8ByteSize ≠ 2 ∨ st.buf.data.head? ≠ some '_') then
        (st.parts ++ [String.mk st.buf.data.dropLast], String.mk st.buf.data.getLast?.toList)
      else (st.parts, st.buf)
    else if ¬ dg ∧ st.num ∧ st.buf.utf8ByteSize ≥ 1 then
      (st.parts ++ [st.buf], "")
    else (st.parts, st.buf)
  { parts := flushed.1, buf := flushed.2.push r, capt := uc, lodash := lodash, num := dg }

/-- Model of `Name.Split`: the components of a name, by dots if it has one,
else by underscores if it has one past its first byte, else by camel case.  In
the underscore case an empty first part (a leading underscore) is dropped and
its underscore is put in front of the second part. -/
def Name.Split (U : unicode.Tables) (n : String) : List String :=
  if n = "" then [""]
  else if n.data.contains '.' then strings.Split n "."
  else if n.data.tail.contains '_' then
    match strings.Split n "_" with
    | p :: q :: ps => if p = "" then ("_" ++ q) :: ps else p :: q :: ps
    | parts => parts
  else
    let st := n.data.foldl (splitStep U) { parts := [], buf := "", capt := false, lodash := false, num := false }
    st.parts ++ [st.buf]

/-- Model of `Name.Transform`: `first` is applied to the first part, `mod` to
the others, and the parts are joined with `sep`. -/
def Name.Transform (U : unicode.Tables) (n : String) (mod first : String → String) (sep : String) : String :=
  match Name.Split U n with
  | [] => strings.Join [] sep
  | p :: ps => strings.Join (first p :: ps.map mod) sep

/-- Model of `Name.UpperCamelCase`: every part in title case, no separator. -/
def Name.UpperCamelCase (U : unicode.Tables) (n : String) : String :=
  Name.Transform U n (strings.Title U) (strings.Title U) ""

/-- The part of `pgs.File` that is read: `Descriptor().GetPackage()` and
`Descriptor().GetOptions().GetRubyPackage()` (empty when the option is not
set). -/
structure File where
  Package : String
  RubyPackage : String
deriving DecidableEq, Repr

/-- The interface `pgs.ParentEntity`: a file, or a message with its name, its
owning file and its own parent. -/
inductive ParentEntity where
  | file (f : File)
  | message (Name : String) (File : File) (Parent : ParentEntity)
deriving DecidableEq, Repr

end pgs

/-! ## Package `ruby_types` -/

/-- The type `methodType` with its three constants. -/
inductive methodType where
  | methodTypeGetter
  | methodTypeSetter
  | methodTypeInitializer
deriving DecidableEq, Repr

open methodType

/-- The interface `EntityWithParent`: a message or an enum, with its name, its
owning file and its parent. -/
structure EntityWithParent where
  Name : String
  File : pgs.File
  Parent : pgs.ParentEntity
deriving DecidableEq, Repr

/-- The interface `FieldType` (what `pgs.FieldType` and `pgs.FieldTypeElem`
share): the proto type and the embedded message, nil unless the type is a
message. -/
structure FieldType where
  ProtoType : pgs.ProtoType
  Embed : Option EntityWithParent
deriving DecidableEq, Repr

/-- The interface `pgs.FieldTypeElem` (the key or the element of a map or
repeated field), seen through `FieldType`. -/
abbrev pgs.FieldTypeElem := FieldType

namespace pgs

/-- The interface `pgs.FieldType`: `Key()` is read for map fields only and
`Element()` for map and repeated fields only. -/
structure FieldType where
  IsMap : Bool
  IsRepeated : Bool
  ProtoType : ProtoType
  Embed : Option EntityWithParent
  Key : FieldTypeElem
  Element : FieldTypeElem
deriving DecidableEq, Repr

/-- The part of `pgs.Field` that matters here: the name of the field, its
type (`Type()`), and the message and the file that declare it. -/
structure Field where
  Name : String
  Type_ : FieldType
  Message : EntityWithParent
  File : File
deriving DecidableEq, Repr

end pgs

/-- A `pgs.FieldType` passed where the interface `FieldType` is expected. -/
def asFieldType (t : pgs.FieldType) : FieldType :=
  { ProtoType := t.ProtoType, Embed := t.Embed }

/-- How a call ends when it does not return: the panic of `log.Panicf`, with
its message, or a method call on a nil interface. -/
inductive Panic where
  | logPanic (msg : String)
  | nilDereference
deriving DecidableEq, Repr

/-- Source function `RubyPackage`. -/
def RubyPackage (U : unicode.Tables) (file : pgs.File) : String :=
  let pkg := file.RubyPackage
  let pkg := if pkg = "" then file.Package else pkg
  let pkg := strings.ReplaceAll pkg "." "::"
  pgs.Name.UpperCamelCase U pkg

/-- Source function `RubyModules`: the loop appends, for `i` from `0` to
`len(split) - 1`, the first `i + 1` components joined with `::`. -/
def RubyModules (U : unicode.Tables) (file : pgs.File) : List String :=
  let p := RubyPackage U file
  let split := strings.Split p "::"
  (List.range split.length).foldl
    (fun modules i => modules ++ [strings.Join (split.take (i + 1)) "::"]) []

/-- The loop of `RubyMessageType` from its second iteration on: `parent` is
`outer.Parent()`; while it is a message its title-cased name is put in front of
`names`, and the loop ends at the first parent that is not a message. -/
def RubyMessageType.walk (U : unicode.Tables) : pgs.ParentEntity → List String → List String
  | .file _, names => names
  | .message name _ parent, names => RubyMessageType.walk U parent (strings.Title U name :: names)

/-- Source function `RubyMessageType`; the first iteration of the loop always
runs, on the entity itself. -/
def RubyMessageType (U : unicode.Tables) (entity : EntityWithParent) : String :=
  let names := RubyMessageType.walk U entity.Parent [strings.Title U entity.Name]
  RubyPackage U entity.File ++ "::" ++ strings.Join names "::"

/-- Source function `rubyProtoTypeElem`; `ft.Embed()` being nil, the call of
`RubyMessageType` panics on `outer.Name()`. -/
def rubyProtoTypeElem (U : unicode.Tables) (field : pgs.Field) (ft : FieldType) : Except Panic String :=
  let pt := ft.ProtoType
  if pgs.ProtoType.IsInt pt then .ok ":integer"
  else if pgs.ProtoType.IsNumeric pt then .ok ":float"
  else if pt = pgs.StringT ∨ pt = pgs.BytesT then .ok ":string"
  else if pt = pgs.BoolT then .ok ":boolean"
  else if pt = pgs.EnumT then .ok ":string"
  else if pt = pgs.MessageT then
    match ft.Embed with
    | some m => .ok (RubyMessageType U m)
    | none => .error .nilDereference
  else .error (.logPanic ("Unsupported field type for field: " ++ field.Name ++ "\n"))

/-- Source function `rubyFieldMapType`. -/
def rubyFieldMapType (U : unicode.Tables) (field : pgs.Field) (ft : pgs.FieldType) (mt : methodType) :
    Except Panic String :=
  if mt = methodTypeSetter then .ok "Google::Protobuf::Map"
  else do
    let key ← rubyProtoTypeElem U field ft.Key
    let value ← rubyProtoTypeElem U field ft.Element
    .ok ("T::Hash[" ++ key ++ ", " ++ value ++ "]")

/-- Source function `rubyFieldRepeatedType`. -/
def rubyFieldRepeatedType (U : unicode.Tables) (field : pgs.Field) (ft : pgs.FieldType) (mt : methodType) :
    Except Panic String :=
  if mt = methodTypeSetter then .ok "Google::Protobuf::RepeatedField"
  else do
    let value ← rubyProtoTypeElem U field ft.Element
    .ok ("T::Array[" ++ value ++ "]")

/-- Source function `rubyFieldType`. -/
def rubyFieldType (U : unicode.Tables) (field : pgs.Field) (mt : methodType) : Except Panic String :=
  let t := field.Type_
  if t.IsMap then rubyFieldMapType U field t mt
  else if t.IsRepeated then rubyFieldRepeatedType U field t mt
  else rubyProtoTypeElem U field (asFieldType t)

/-- Source function `RubyGetterFieldType`. -/
def RubyGetterFieldType (U : unicode.Tables) (field : pgs.Field) : Except Panic String :=
  rubyFieldType U field methodTypeGetter

/-- Source function `RubySetterFieldType`. -/
def RubySetterFieldType (U : unicode.Tables) (field : pgs.Field) : Except Panic String :=
  rubyFieldType U field methodTypeSetter

/-- Source function `RubyInitializerFieldType`. -/
def RubyInitializerFieldType (U : unicode.Tables) (field : pgs.Field) : Except Panic String :=
  rubyFieldType U field methodTypeInitializer

/-! ## `RubyMessageType` over the schema graph in memory

The entity handed to `RubyMessageType` is a reference into the schema graph
that the caller owns.  To speak of what a call does to that graph, the
function is embedded a second time with explicit state passing: the graph is
a store of objects by address, every method call is a read of the store, and a
call returns its string together with the store it leaves behind. -/

/-- What `Parent()` holds: a file, or the address of the enclosing message. -/
inductive ParentRef where
  | file (f : pgs.File)
  | message (addr : Nat)
deriving DecidableEq, Repr

/-- A message or an enum as it lies in the store: what `Name()`, `File()` and
`Parent()` read. -/
structure Object where
  Name : String
  File : pgs.File
  Parent : ParentRef
deriving DecidableEq, Repr

/-- The schema graph: the objects by address. -/
abbrev Graph := List Object

/-- The loop of `RubyMessageType` over the store: an iteration reads the name
of `outer`, puts its title case in front of `names`, reads the parent of
`outer`, and goes on with it if it is a message.  `fuel` bounds the number of
iterations; the result is `none` when the fuel runs out or an address holds
no object. -/
def RubyMessageType.loop (U : unicode.Tables) :
    Nat → Graph → List String → Nat → Option (List String × Graph)
  | 0, _, _, _ => none
  | fuel + 1, g, names, outer =>
    match g[outer]? with
    | none => none
    | some obj =>
      match obj.Parent with
      | .message addr => RubyMessageType.loop U fuel g (strings.Title U obj.Name :: names) addr
      | .file _ => some (strings.Title U obj.Name :: names, g)

/-- Source function `RubyMessageType` over the store: the loop from the entity,
then the read of `entity.File()` and the `Sprintf`; the second component is
the store after the call. -/
def RubyMessageType.run (U : unicode.Tables) (fuel : Nat) (g : Graph) (entity : Nat) :
    Option (String × Graph) :=
  match RubyMessageType.loop U fuel g [] entity with
  | none => none
  | some (names, g1) =>
    match g1[entity]? with
    | none => none
    | some obj => some (RubyPackage U obj.File ++ "::" ++ strings.Join names "::", g1)

/-- The store holds, behind the reference `r`, the chain of parents `p`. -/
inductive Holds (g : Graph) : ParentRef → pgs.ParentEntity → Prop where
  | file (f : pgs.File) : Holds g (.file f) (.file f)
  | message {addr : Nat} {obj : Object} {p : pgs.ParentEntity} :
      g[addr]? = some obj → Holds g obj.Parent p →
      Holds g (.message addr) (.message obj.Name obj.File p)

/-- The store holds the entity `e` at the address `a`. -/
def holdsEntity (g : Graph) (a : Nat) (e : EntityWithParent) : Prop :=
  ∃ obj, g[a]? = some obj ∧ obj.Name = e.Name ∧ obj.File = e.File ∧ Holds g obj.Parent e.Parent

/-- A store for a chain of parents: the outermost message first, each message
referring to the address before its own. -/
def storeParent : pgs.ParentEntity → Graph
  | .file _ => []
  | .message name file parent =>
    storeParent parent ++
      [{ Name := name, File := file,
         Parent := match parent with
           | .file f => .file f
           | .message _ _ _ => .message ((storeParent parent).length - 1) }]

/-- The reference to the innermost message of `storeParent parent`. -/
def parentRef (parent : pgs.ParentEntity) : ParentRef :=
  match parent with
  | .file f => .file f
  | .message _ _ _ => .message ((storeParent parent).length - 1)

/-- A store for an entity: its parents, then the entity itself, at the address
`(storeParent e.Parent).length`. -/
def store (e : EntityWithParent) : Graph :=
  storeParent e.Parent ++ [{ Name := e.Name, File := e.File, Parent := parentRef e.Parent }]

/-! ## Specification-side vocabulary -/

/-- The ten integer proto types. -/
def integerTypes : List pgs.ProtoType :=
  [pgs.Int64T, pgs.UInt64T, pgs.Int32T, pgs.Fixed64T, pgs.Fixed32T,
   pgs.UInt32T, pgs.SFixed32, pgs.SFixed64, pgs.SInt32, pgs.SInt64]

/-- The supported taxonomy: integer, float, double, string, bytes, bool, enum
and message. -/
def supportedType (pt : pgs.ProtoType) : Prop :=
  pt ∈ integerTypes ∨ pt = pgs.FloatT ∨ pt = pgs.DoubleT ∨ pt = pgs.StringT ∨
  pt = pgs.BytesT ∨ pt = pgs.BoolT ∨ pt = pgs.EnumT ∨ pt = pgs.MessageT

instance (pt : pgs.ProtoType) : Decidable (supportedType pt) := by
  unfold supportedType; exact inferInstance

/-- The message of the unsupported-type panic for a field of the given name. -/
def unsupportedMessage (name : String) : String :=
  "Unsupported field type for field: " ++ name ++ "\n"

/-- The names of the messages that enclose an entity, outermost first. -/
def enclosing : pgs.ParentEntity → List String
  | .file _ => []
  | .message name _ parent => enclosing parent ++ [name]

/-- The number of messages that enclose an entity. -/
def depth : pgs.ParentEntity → Nat
  | .file _ => 0
  | .message _ _ parent => depth parent + 1

/-- The title-cased names joined with `::`, outermost first. -/
def joinCap (U : unicode.Tables) : List String → String
  | [] => ""
  | [x] => strings.Title U x
  | x :: y :: rest => strings.Title U x ++ "::" ++ joinCap U (y :: rest)

/-- The declared type category of a field lies outside the supported
taxonomy: for a map field its key or its value type, for a repeated field its
element type, for a singular field its own type. -/
def declaredUnsupported (t : pgs.FieldType) : Prop :=
  if t.IsMap then ¬ supportedType t.Key.ProtoType ∨ ¬ supportedType t.Element.ProtoType
  else if t.IsRepeated then ¬ supportedType t.Element.ProtoType
  else ¬ supportedType t.ProtoType

/-- A message-typed element carries its embedded message. -/
def hasEmbed (ft : FieldType) : Prop :=
  ft.ProtoType = pgs.MessageT → ft.Embed ≠ none

/-- The condition under which `rubyFieldType` is claimed to panic: a singular
field of unsupported type, or, outside the setter context, a repeated field of
unsupported element type or a map field of unsupported key or value type. -/
def failureCondition (t : pgs.FieldType) (mt : methodType) : Prop :=
  (t.IsMap = false ∧ t.IsRepeated = false ∧ ¬ supportedType t.ProtoType) ∨
  (t.IsMap = false ∧ t.IsRepeated = true ∧ mt ≠ methodTypeSetter ∧
    ¬ supportedType t.Element.ProtoType) ∨
  (t.IsMap = true ∧ mt ≠ methodTypeSetter ∧
    (¬ supportedType t.Key.ProtoType ∨ ¬ supportedType t.Element.ProtoType))

/-- The message-typed parts of a field type carry their embedded message: the
key and the value of a map field, the element of a repeated field, the type
itself of a singular field. -/
def embedsPresent (t : pgs.FieldType) : Prop :=
  if t.IsMap then hasEmbed t.Key ∧ hasEmbed t.Element
  else if t.IsRepeated then hasEmbed t.Element
  else hasEmbed { ProtoType := t.ProtoType, Embed := t.Embed }

/-- A part of the field type that the call reads is message-typed and carries
no embedded message: `rubyFieldType` then calls `RubyMessageType` on nil. -/
def nilCondition (t : pgs.FieldType) (mt : methodType) : Prop :=
  ((t.IsMap = false ∧ t.IsRepeated = false) ∨ mt ≠ methodTypeSetter) ∧ ¬ embedsPresent t

/-! ## Sample schema objects -/

/-- A file with package `a.b` and no `ruby_package` option. -/
def fileAB : pgs.File := { Package := "a.b", RubyPackage := "" }

/-- The top-level message `Foo` of `fileAB`. -/
def msgFoo : EntityWithParent := { Name := "Foo", File := fileAB, Parent := .file fileAB }

/-- The message `Bar` nested in `Foo`. -/
def msgBar : EntityWithParent :=
  { Name := "Bar", File := fileAB, Parent := .message "Foo" fileAB (.file fileAB) }

/-- An element of scalar type `pt`: no embedded message. -/
def scalarElem (pt : pgs.ProtoType) : FieldType := { ProtoType := pt, Embed := none }

/-- A singular field of `Foo` of scalar type `pt`. -/
def singularField (name : String) (pt : pgs.ProtoType) : pgs.Field :=
  { Name := name,
    Type_ := { IsMap := false, IsRepeated := false, ProtoType := pt, Embed := none,
               Key := scalarElem 0, Element := scalarElem 0 },
    Message := msgFoo, File := fileAB }

/-- A repeated field of `Foo` with the given element. -/
def repeatedField (name : String) (el : FieldType) : pgs.Field :=
  { Name := name,
    Type_ := { IsMap := false, IsRepeated := true, ProtoType := el.ProtoType, Embed := el.Embed,
               Key := scalarElem 0, Element := el },
    Message := msgFoo, File := fileAB }

/-- A map field of `Foo` with the given key and value. -/
def mapField (name : String) (key value : FieldType) : pgs.Field :=
  { Name := name,
    Type_ := { IsMap := true, IsRepeated := false, ProtoType := pgs.MessageT, Embed := none,
               Key := key, Element := value },
    Message := msgFoo, File := fileAB }

/-- The repeated field `legacy` whose elements are of group type. -/
def legacyGroups : pgs.Field := repeatedField "legacy" (scalarElem pgs.GroupT)

/-- A file whose `ruby_package` override is written with `::`, as Ruby
namespaces are. -/
def overrideFile : pgs.File := { Package := "foo.bar", RubyPackage := "Foo::Bar" }

/-- A file with the `ruby_package` override of `overrideFile` and another
package name. -/
def overrideFileOther : pgs.File := { Package := "other.pkg", RubyPackage := "Foo::Bar" }

/-- The message `Bar` nested in a message `Foo` that records another file than
the `Foo` of `msgBar` does. -/
def msgBarOther : EntityWithParent :=
  { Name := "Bar", File := fileAB, Parent := .message "Foo" overrideFile (.file overrideFile) }

/-- The singular field `owner` of message type whose `Embed()` is nil. -/
def ownerField : pgs.Field := singularField "owner" pgs.MessageT

/-! ## Relations used to count the components of a namespace -/

theorem isInt_of_mem {pt : pgs.ProtoType} (h : pt ∈ integerTypes) :
    pgs.ProtoType.IsInt pt = true := by
  simp only [integerTypes, List.mem_cons, List.mem_singleton, List.not_mem_nil, or_false] at h
  rcases h with h | h | h | h | h | h | h | h | h | h <;> subst h <;> decide

theorem mem_of_isInt {pt : pgs.ProtoType} (h : pgs.ProtoType.IsInt pt = true) :
    pt ∈ integerTypes := by
  simp only [pgs.ProtoType.IsInt, Bool.or_eq_true, beq_iff_eq] at h
  simp only [integerTypes, List.mem_cons, List.mem_singleton, List.not_mem_nil, or_false]
  tauto

theorem elem_integer (U : unicode.Tables) (field : pgs.Field) (ft : FieldType)
    (h : ft.ProtoType ∈ integerTypes) : rubyProtoTypeElem U field ft = .ok ":integer" := by
  simp [rubyProtoTypeElem, isInt_of_mem h]

theorem elem_float (U : unicode.Tables) (field : pgs.Field) (ft : FieldType)
    (h : ft.ProtoType = pgs.FloatT ∨ ft.ProtoType = pgs.DoubleT) :
    rubyProtoTypeElem U field ft = .ok ":float" := by
  rcases h with h | h <;> simp only [rubyProtoTypeElem, h] <;> rfl

theorem elem_string (U : unicode.Tables) (field : pgs.Field) (ft : FieldType)
    (h : ft.ProtoType = pgs.StringT ∨ ft.ProtoType = pgs.BytesT ∨ ft.ProtoType = pgs.EnumT) :
    rubyProtoTypeElem U field ft = .ok ":string" := by
  rcases h with h | h | h <;> simp only [rubyProtoTypeElem, h] <;> rfl

theorem elem_boolean (U : unicode.Tables) (field : pgs.Field) (ft : FieldType)
    (h : ft.ProtoType = pgs.BoolT) : rubyProtoTypeElem U field ft = .ok ":boolean" := by
  simp only [rubyProtoTypeElem, h]; rfl

theorem fieldType_singular (U : unicode.Tables) (field : pgs.Field) (mt : methodType)
    (hmap : field.Type_.IsMap = false) (hrep : field.Type_.IsRepeated = false) :
    rubyFieldType U field mt = rubyProtoTypeElem U field (asFieldType field.Type_) := by
  simp [rubyFieldType, hmap, hrep]

theorem fieldType_map (U : unicode.Tables) (field : pgs.Field) (mt : methodType)
    (hmap : field.Type_.IsMap = true) :
    rubyFieldType U field mt = rubyFieldMapType U field field.Type_ mt := by
  simp [rubyFieldType, hmap]

theorem fieldType_repeated (U : unicode.Tables) (field : pgs.Field) (mt : methodType)
    (hmap : field.Type_.IsMap = false) (hrep : field.Type_.IsRepeated = true) :
    rubyFieldType U field mt = rubyFieldRepeatedType U field field.Type_ mt := by
  simp [rubyFieldType, hmap, hrep]

theorem mapType_read (U : unicode.Tables) (field : pgs.Field) (ft : pgs.FieldType)
    (mt : methodType) (hmt : mt ≠ methodTypeSetter) :
    rubyFieldMapType U field ft mt =
      (rubyProtoTypeElem U field ft.Key).bind fun key =>
        (rubyProtoTypeElem U field ft.Element).bind fun value =>
          .ok ("T::Hash[" ++ key ++ ", " ++ value ++ "]") := by
  simp only [rubyFieldMapType, hmt, if_false]
  rfl

theorem repeatedType_read (U : unicode.Tables) (field : pgs.Field) (ft : pgs.FieldType)
    (mt : methodType) (hmt : mt ≠ methodTypeSetter) :
    rubyFieldRepeatedType U field ft mt =
      (rubyProtoTypeElem U field ft.Element).bind fun value =>
        .ok ("T::Array[" ++ value ++ "]") := by
  simp only [rubyFieldRepeatedType, hmt, if_false]
  rfl

/-! ## Claims on the field resolution -/

/-- C1: for a singular field (neither map nor repeated) and any usage
context, `rubyFieldType` returns `:integer` on an integer type, `:float` on
float and double, `:string` on string, bytes and enum, `:boolean` on bool; an
integer type is never rendered as `:float`. -/
theorem C1_singular_scalar_tags (U : unicode.Tables) (field : pgs.Field) (mt : methodType)
    (hmap : field.Type_.IsMap = false) (hrep : field.Type_.IsRepeated = false) :
    (field.Type_.ProtoType ∈ integerTypes → rubyFieldType U field mt = .ok ":integer") ∧
    (field.Type_.ProtoType = pgs.FloatT ∨ field.Type_.ProtoType = pgs.DoubleT →
      rubyFieldType U field mt = .ok ":float") ∧
    (field.Type_.ProtoType = pgs.StringT ∨ field.Type_.ProtoType = pgs.BytesT ∨
      field.Type_.ProtoType = pgs.EnumT → rubyFieldType U field mt = .ok ":string") ∧
    (field.Type_.ProtoType = pgs.BoolT → rubyFieldType U field mt = .ok ":boolean") ∧
    (field.Type_.ProtoType ∈ integerTypes → rubyFieldType U field mt ≠ .ok ":float") := by
  rw [fieldType_singular U field mt hmap hrep]
  refine ⟨fun h => elem_integer U field _ h, fun h => elem_float U field _ h,
    fun h => elem_string U field _ h, fun h => elem_boolean U field _ h, fun h => ?_⟩
  rw [elem_integer U field _ h]
  intro hc
  exact absurd (Except.ok.inj hc) (by decide)

/-- Witness of C1: the singular `int32` field `id` in the getter context. -/
theorem C1_singular_scalar_tags_witness :
    rubyFieldType unicode.plain (singularField "id" pgs.Int32T) methodTypeGetter = .ok ":integer" ∧
    rubyFieldType unicode.plain (singularField "id" pgs.Int32T) methodTypeGetter ≠ .ok ":float" :=
  have h := C1_singular_scalar_tags unicode.plain (singularField "id" pgs.Int32T)
    methodTypeGetter rfl rfl
  ⟨h.1 (by decide), h.2.2.2.2 (by decide)⟩

/-- C2: for a map field, the setter context gives `Google::Protobuf::Map`
whatever the key and value are; the getter and the initializer contexts give
the same outcome, which is `T::Hash[K, V]` for the resolved key `K` and value
`V`; integer keys with string values give `T::Hash[:integer, :string]`. -/
theorem C2_map_field (U : unicode.Tables) (field : pgs.Field)
    (hmap : field.Type_.IsMap = true) :
    rubyFieldType U field methodTypeSetter = .ok "Google::Protobuf::Map" ∧
    rubyFieldType U field methodTypeGetter = rubyFieldType U field methodTypeInitializer ∧
    (∀ K V, rubyProtoTypeElem U field field.Type_.Key = .ok K →
      rubyProtoTypeElem U field field.Type_.Element = .ok V →
      rubyFieldType U field methodTypeGetter = .ok ("T::Hash[" ++ K ++ ", " ++ V ++ "]") ∧
      rubyFieldType U field methodTypeInitializer = .ok ("T::Hash[" ++ K ++ ", " ++ V ++ "]")) ∧
    (field.Type_.Key.ProtoType ∈ integerTypes → field.Type_.Element.ProtoType = pgs.StringT →
      rubyFieldType U field methodTypeGetter = .ok "T::Hash[:integer, :string]" ∧
      rubyFieldType U field methodTypeInitializer = .ok "T::Hash[:integer, :string]") := by
  have hg := mapType_read U field field.Type_ methodTypeGetter (by decide)
  have hi := mapType_read U field field.Type_ methodTypeInitializer (by decide)
  simp only [fieldType_map U field _ hmap]
  refine ⟨rfl, by rw [hg, hi], fun K V hK hV => ?_, fun hk hv => ?_⟩
  · rw [hg, hi, hK, hV]; exact ⟨rfl, rfl⟩
  · rw [hg, hi, elem_integer U field _ hk, elem_string U field _ (Or.inl hv)]; exact ⟨rfl, rfl⟩

/-- Witness of C2: the map field `tags` with `int32` keys and string
values. -/
theorem C2_map_field_witness :
    rubyFieldType unicode.plain (mapField "tags" (scalarElem pgs.Int32T) (scalarElem pgs.StringT))
      methodTypeSetter = .ok "Google::Protobuf::Map" ∧
    rubyFieldType unicode.plain (mapField "tags" (scalarElem pgs.Int32T) (scalarElem pgs.StringT))
      methodTypeGetter = .ok "T::Hash[:integer, :string]" ∧
    rubyFieldType unicode.plain (mapField "tags" (scalarElem pgs.Int32T) (scalarElem pgs.StringT))
      methodTypeInitializer = .ok "T::Hash[:integer, :string]" :=
  have h := C2_map_field unicode.plain
    (mapField "tags" (scalarElem pgs.Int32T) (scalarElem pgs.StringT)) rfl
  ⟨h.1, (h.2.2.1 ":integer" ":string" rfl rfl).1, (h.2.2.2 (by decide) rfl).2⟩

/-- C3: for a repeated field that is not a map, the setter context gives
`Google::Protobuf::RepeatedField` whatever the element is; the getter and the
initializer contexts give the same outcome, which is `T::Array[E]` for the
resolved element `E`. -/
theorem C3_repeated_field (U : unicode.Tables) (field : pgs.Field)
    (hmap : field.Type_.IsMap = false) (hrep : field.Type_.IsRepeated = true) :
    rubyFieldType U field methodTypeSetter = .ok "Google::Protobuf::RepeatedField" ∧
    rubyFieldType U field methodTypeGetter = rubyFieldType U field methodTypeInitializer ∧
    (∀ E, rubyProtoTypeElem U field field.Type_.Element = .ok E →
      rubyFieldType U field methodTypeGetter = .ok ("T::Array[" ++ E ++ "]") ∧
      rubyFieldType U field methodTypeInitializer = .ok ("T::Array[" ++ E ++ "]")) := by
  have hg := repeatedType_read U field field.Type_ methodTypeGetter (by decide)
  have hi := repeatedType_read U field field.Type_ methodTypeInitializer (by decide)
  simp only [fieldType_repeated U field _ hmap hrep]
  refine ⟨rfl, by rw [hg, hi], fun E hE => ?_⟩
  rw [hg, hi, hE]; exact ⟨rfl, rfl⟩

/-- Witness of C3: the repeated string field `names`. -/
theorem C3_repeated_field_witness :
    rubyFieldType unicode.plain (repeatedField "names" (scalarElem pgs.StringT))
      methodTypeSetter = .ok "Google::Protobuf::RepeatedField" ∧
    rubyFieldType unicode.plain (repeatedField "names" (scalarElem pgs.StringT))
      methodTypeGetter = .ok "T::Array[:string]" ∧
    rubyFieldType unicode.plain (repeatedField "names" (scalarElem pgs.StringT))
      methodTypeInitializer = .ok "T::Array[:string]" :=
  have h := C3_repeated_field unicode.plain
    (repeatedField "names" (scalarElem pgs.StringT)) rfl rfl
  ⟨h.1, (h.2.2 ":string" rfl).1, (h.2.2 ":string" rfl).2⟩

theorem elem_unsupported (U : unicode.Tables) (field : pgs.Field) (ft : FieldType)
    (h : ¬ supportedType ft.ProtoType) :
    rubyProtoTypeElem U field ft = .error (.logPanic (unsupportedMessage field.Name)) := by
  simp only [supportedType, not_or] at h
  obtain ⟨hint, hfl, hdb, hstr, hby, hbo, hen, hmsg⟩ := h
  have h1 : pgs.ProtoType.IsInt ft.ProtoType = false := by
    cases hc : pgs.ProtoType.IsInt ft.ProtoType
    · rfl
    · exact absurd (mem_of_isInt hc) hint
  have h2 : pgs.ProtoType.IsNumeric ft.ProtoType = false := by
    simp [pgs.ProtoType.IsNumeric, h1, hfl, hdb]
  simp [rubyProtoTypeElem, h1, h2, hstr, hby, hbo, hen, hmsg, unsupportedMessage]

theorem elem_supported_outcome (U : unicode.Tables) (field : pgs.Field) (ft : FieldType)
    (he : hasEmbed ft) (hs : supportedType ft.ProtoType) :
    ∃ s, rubyProtoTypeElem U field ft = .ok s := by
  rcases hs with h | h | h | h | h | h | h | h
  · exact ⟨_, elem_integer U field ft h⟩
  · exact ⟨_, elem_float U field ft (Or.inl h)⟩
  · exact ⟨_, elem_float U field ft (Or.inr h)⟩
  · exact ⟨_, elem_string U field ft (Or.inl h)⟩
  · exact ⟨_, elem_string U field ft (Or.inr (Or.inl h))⟩
  · exact ⟨_, elem_boolean U field ft h⟩
  · exact ⟨_, elem_string U field ft (Or.inr (Or.inr h))⟩
  · cases hm : ft.Embed with
    | none => exact absurd hm (he h)
    | some m =>
      refine ⟨RubyMessageType U m, ?_⟩
      simp only [rubyProtoTypeElem, h, hm]
      rfl

/-- Counterexample to C4 as stated: the element type of the repeated field
`legacy` is a group, outside the supported taxonomy, and yet the setter
context returns a string. -/
theorem C4_setter_returns_on_unsupported :
    legacyGroups.Type_.IsMap = false ∧ legacyGroups.Type_.IsRepeated = true ∧
    ¬ supportedType legacyGroups.Type_.Element.ProtoType ∧
    declaredUnsupported legacyGroups.Type_ ∧
    rubyFieldType unicode.plain legacyGroups methodTypeSetter =
      .ok "Google::Protobuf::RepeatedField" := by
  refine ⟨rfl, rfl, by decide, ?_, rfl⟩
  simp only [declaredUnsupported, legacyGroups, repeatedField]
  decide

/-- C4, amended: outside the setter context of a repeated or map field, a
field whose declared type category is outside the supported taxonomy makes
`rubyFieldType` fail without returning a string, and the failure is the
unsupported-type panic naming the field (for a map field with a supported key
type, provided a message-typed key carries its embedded message); in the
setter context a map or repeated field gets its container sentinel. -/
theorem C4_unsupported_type_fails (U : unicode.Tables) (field : pgs.Field) (mt : methodType) :
    (((field.Type_.IsMap = false ∧ field.Type_.IsRepeated = false) ∨ mt ≠ methodTypeSetter) →
      declaredUnsupported field.Type_ →
      (∀ s, rubyFieldType U field mt ≠ .ok s) ∧
      ((field.Type_.IsMap = true →
          ¬ supportedType field.Type_.Key.ProtoType ∨ hasEmbed field.Type_.Key) →
        rubyFieldType U field mt = .error (.logPanic (unsupportedMessage field.Name)))) ∧
    (field.Type_.IsMap = true →
      rubyFieldType U field methodTypeSetter = .ok "Google::Protobuf::Map") ∧
    (field.Type_.IsMap = false → field.Type_.IsRepeated = true →
      rubyFieldType U field methodTypeSetter = .ok "Google::Protobuf::RepeatedField") := by
  refine ⟨fun hread hun => ?_, fun hmap => ?_, fun hmap hrep => ?_⟩
  · cases hmap : field.Type_.IsMap with
    | true =>
      have hmt : mt ≠ methodTypeSetter := by
        rcases hread with h | h
        · rw [hmap] at h; exact absurd h.1 (by decide)
        · exact h
      simp only [declaredUnsupported, hmap, if_true] at hun
      rw [fieldType_map U field mt hmap, mapType_read U field _ mt hmt]
      by_cases hk : supportedType field.Type_.Key.ProtoType
      · have hv : ¬ supportedType field.Type_.Element.ProtoType := by
          rcases hun with h | h
          · exact absurd hk h
          · exact h
        rw [elem_unsupported U field _ hv]
        constructor
        · intro s
          cases rubyProtoTypeElem U field field.Type_.Key <;> simp [Except.bind]
        · intro hwf
          rcases hwf rfl with h | h
          · exact absurd hk h
          · obtain ⟨K, hK⟩ := elem_supported_outcome U field _ h hk
            rw [hK]; rfl
      · rw [elem_unsupported U field _ hk]
        exact ⟨fun s => by simp [Except.bind], fun _ => rfl⟩
    | false =>
      cases hrep : field.Type_.IsRepeated with
      | true =>
        have hmt : mt ≠ methodTypeSetter := by
          rcases hread with h | h
          · rw [hrep] at h; exact absurd h.2 (by decide)
          · exact h
        simp only [declaredUnsupported, hmap, hrep, if_true] at hun
        simp only [Bool.false_eq_true, if_false] at hun
        rw [fieldType_repeated U field mt hmap hrep, repeatedType_read U field _ mt hmt,
          elem_unsupported U field _ hun]
        exact ⟨fun s => by simp [Except.bind], fun _ => rfl⟩
      | false =>
        simp only [declaredUnsupported, hmap, hrep] at hun
        simp only [Bool.false_eq_true, if_false] at hun
        rw [fieldType_singular U field mt hmap hrep]
        have hun2 : ¬ supportedType (asFieldType field.Type_).ProtoType := hun
        rw [elem_unsupported U field _ hun2]
        exact ⟨fun s => by simp, fun _ => rfl⟩
  · rw [fieldType_map U field _ hmap]; rfl
  · rw [fieldType_repeated U field _ hmap hrep]; rfl

/-- Witness of C4, amended: the repeated group field `legacy` fails in the
getter context with the panic that names it, and gets the sentinel in the
setter context. -/
theorem C4_unsupported_type_fails_witness :
    declaredUnsupported legacyGroups.Type_ ∧
    rubyFieldType unicode.plain legacyGroups methodTypeGetter =
      .error (.logPanic "Unsupported field type for field: legacy\n") ∧
    rubyFieldType unicode.plain legacyGroups methodTypeSetter =
      .ok "Google::Protobuf::RepeatedField" :=
  have hun : declaredUnsupported legacyGroups.Type_ := by
    simp only [declaredUnsupported, legacyGroups, repeatedField]
    decide
  have h := C4_unsupported_type_fails unicode.plain legacyGroups methodTypeGetter
  ⟨hun, (h.1 (Or.inr (by decide)) hun).2 (fun hm => absurd hm (by decide)), h.2.2 rfl rfl⟩

/-! ## Lemmas on the qualified name -/

theorem join_fold_append (sep a b : String) (rest : List String) :
    rest.foldl (fun acc s => acc ++ sep ++ s) (a ++ b) =
      a ++ rest.foldl (fun acc s => acc ++ sep ++ s) b := by
  induction rest generalizing b with
  | nil => rfl
  | cons x xs ih =>
    simp only [List.foldl_cons]
    rw [String.append_assoc, String.append_assoc, ← String.append_assoc b sep x]
    exact ih _

theorem join_cons_cons (x y : String) (rest : List String) (sep : String) :
    strings.Join (x :: y :: rest) sep = x ++ sep ++ strings.Join (y :: rest) sep := by
  simp only [strings.Join, List.foldl_cons]
  rw [String.append_assoc, join_fold_append, join_fold_append, String.append_assoc]

theorem joinCap_eq_join (U : unicode.Tables) (names : List String) :
    joinCap U names = strings.Join (names.map (strings.Title U)) "::" := by
  induction names with
  | nil => rfl
  | cons x xs ih =>
    cases xs with
    | nil => rfl
    | cons y ys =>
      simp only [joinCap, List.map_cons, join_cons_cons]
      rw [ih]
      rfl

theorem walk_eq (U : unicode.Tables) (parent : pgs.ParentEntity) (names : List String) :
    RubyMessageType.walk U parent names = (enclosing parent).map (strings.Title U) ++ names := by
  induction parent generalizing names with
  | file f => rfl
  | message name f parent ih =>
    simp only [RubyMessageType.walk, enclosing, List.map_append, List.map_cons, List.map_nil]
    rw [ih]
    simp

theorem enclosing_length (parent : pgs.ParentEntity) : (enclosing parent).length = depth parent := by
  induction parent with
  | file f => rfl
  | message name f parent ih => simp [enclosing, depth, ih]

theorem rubyMessageType_eq (U : unicode.Tables) (entity : EntityWithParent) :
    RubyMessageType U entity =
      RubyPackage U entity.File ++ "::" ++ joinCap U (enclosing entity.Parent ++ [entity.Name]) := by
  simp only [RubyMessageType, walk_eq, joinCap_eq_join, List.map_append, List.map_cons,
    List.map_nil]

/-! ## Claims on the qualified name -/

/-- C5: for an element of message type, `rubyProtoTypeElem` returns
`RubyMessageType` of the embedded message; the result is the same for every
field (whatever its name, declaring message and declaring file), and it is
fixed by the name of the embedded message, the names of its enclosing messages
and the namespace of its own file. -/
theorem C5_message_element (U : unicode.Tables) (field : pgs.Field) (ft : FieldType)
    (m : EntityWithParent) (hpt : ft.ProtoType = pgs.MessageT) (hm : ft.Embed = some m) :
    rubyProtoTypeElem U field ft = .ok (RubyMessageType U m) ∧
    (∀ other : pgs.Field, rubyProtoTypeElem U other ft = rubyProtoTypeElem U field ft) ∧
    (∀ m2 : EntityWithParent, m2.Name = m.Name → enclosing m2.Parent = enclosing m.Parent →
      RubyPackage U m2.File = RubyPackage U m.File →
      RubyMessageType U m2 = RubyMessageType U m) := by
  have h : ∀ f : pgs.Field, rubyProtoTypeElem U f ft = .ok (RubyMessageType U m) := by
    intro f
    simp only [rubyProtoTypeElem, hpt, hm]
    rfl
  refine ⟨h field, fun other => by rw [h other, h field], fun m2 hn he hp => ?_⟩
  rw [rubyMessageType_eq, rubyMessageType_eq, hn, he, hp]

/-- Witness of C5: an element embedding the nested message `Bar`, read for a
field named `owner`. -/
theorem C5_message_element_witness :
    rubyProtoTypeElem unicode.plain (singularField "owner" pgs.MessageT)
      { ProtoType := pgs.MessageT, Embed := some msgBar } = .ok "A::B::Foo::Bar" :=
  (C5_message_element unicode.plain (singularField "owner" pgs.MessageT)
    { ProtoType := pgs.MessageT, Embed := some msgBar } msgBar rfl rfl).1

/-- C6: for every entity, whatever the depth `d` of its chain of enclosing
messages, `RubyMessageType` is the namespace of the entity's own file, then
`::`, then the `d + 1` title-cased names joined with `::`, the outermost
enclosing message first and the entity itself last. -/
theorem C6_qualified_name (U : unicode.Tables) (entity : EntityWithParent) :
    RubyMessageType U entity =
      RubyPackage U entity.File ++ "::" ++ joinCap U (enclosing entity.Parent ++ [entity.Name]) ∧
    (enclosing entity.Parent ++ [entity.Name]).length = depth entity.Parent + 1 := by
  refine ⟨rubyMessageType_eq U entity, ?_⟩
  simp [enclosing_length]

/-- C7: the top-level message `Foo` of a file with package `a.b` and no
`ruby_package` override resolves to `A::B::Foo`; in general a top-level
entity resolves to the namespace of its file, `::`, and its title-cased
name. -/
theorem C7_top_level_name (U : unicode.Tables) :
    (∀ g : pgs.File, RubyMessageType U
      { Name := "Foo", File := { Package := "a.b", RubyPackage := "" }, Parent := .file g } =
        "A::B::Foo") ∧
    (∀ (name : String) (f g : pgs.File), RubyMessageType U
      { Name := name, File := f, Parent := .file g } =
        RubyPackage U f ++ "::" ++ strings.Title U name) :=
  ⟨fun _ => rfl, fun _ _ _ => rfl⟩

/-- C8: the message `Bar` nested directly in the top-level message `Foo`, in a
file with package `a.b` and no `ruby_package` override, resolves to
`A::B::Foo::Bar`. -/
theorem C8_nested_name (U : unicode.Tables) (fooFile g : pgs.File) :
    RubyMessageType U
      { Name := "Bar", File := { Package := "a.b", RubyPackage := "" },
        Parent := .message "Foo" fooFile (.file g) } = "A::B::Foo::Bar" :=
  rfl

/-! ## Lemmas on the module list -/

theorem fold_append_map {α β : Type} (g : α → β) (l : List α) (acc : List β) :
    l.foldl (fun modules i => modules ++ [g i]) acc = acc ++ l.map g := by
  induction l generalizing acc with
  | nil => simp
  | cons x xs ih => simp [List.foldl_cons, ih]

theorem rubyModules_eq_map (U : unicode.Tables) (file : pgs.File) :
    RubyModules U file =
      (List.range (strings.Split (RubyPackage U file) "::").length).map
        (fun i => strings.Join ((strings.Split (RubyPackage U file) "::").take (i + 1)) "::") := by
  simp only [RubyModules]
  rw [fold_append_map]
  simp

/-- C9: for a file with package `a.b.c` and no `ruby_package` override,
`RubyModules` is `A`, `A::B`, `A::B::C` in this order, the namespace itself
being `A::B::C`: every component capitalized, joined with `::`. -/
theorem C9_modules_of_abc (U : unicode.Tables) :
    RubyModules U { Package := "a.b.c", RubyPackage := "" } = ["A", "A::B", "A::B::C"] ∧
    RubyPackage U { Package := "a.b.c", RubyPackage := "" } = "A::B::C" :=
  ⟨rfl, rfl⟩

theorem rubyModules_congr (U : unicode.Tables) (f1 f2 : pgs.File)
    (h : RubyPackage U f1 = RubyPackage U f2) : RubyModules U f1 = RubyModules U f2 := by
  simp only [RubyModules, h]

theorem rubyMessageType_congr (U : unicode.Tables) (name : String) (f1 f2 : pgs.File)
    (parent : pgs.ParentEntity) (h : RubyPackage U f1 = RubyPackage U f2) :
    RubyMessageType U { Name := name, File := f1, Parent := parent } =
      RubyMessageType U { Name := name, File := f2, Parent := parent } := by
  simp only [RubyMessageType, h]

theorem rubyPackage_of_override (U : unicode.Tables) (f : pgs.File) (h : f.RubyPackage ≠ "") :
    RubyPackage U f = pgs.Name.UpperCamelCase U (strings.ReplaceAll f.RubyPackage "." "::") := by
  simp [RubyPackage, h]

theorem rubyPackage_of_package (U : unicode.Tables) (f : pgs.File) (h : f.RubyPackage = "") :
    RubyPackage U f = pgs.Name.UpperCamelCase U (strings.ReplaceAll f.Package "." "::") := by
  simp [RubyPackage, h]

/-! ## Claims on the namespace of a file and on usage contexts -/

/-- C11: `RubyPackage` reads the `ruby_package` option whenever it is not
empty and the package name exactly when it is: two files with the same
non-empty option give the same `RubyPackage`, `RubyModules` and
`RubyMessageType` whatever their package names, and a file with an empty
option gives the same results as a file whose option equals its package
name. -/
theorem C11_namespace_source (U : unicode.Tables) :
    (∀ f : pgs.File, f.RubyPackage ≠ "" →
      RubyPackage U f = pgs.Name.UpperCamelCase U (strings.ReplaceAll f.RubyPackage "." "::")) ∧
    (∀ f : pgs.File, f.RubyPackage = "" →
      RubyPackage U f = pgs.Name.UpperCamelCase U (strings.ReplaceAll f.Package "." "::")) ∧
    (∀ f1 f2 : pgs.File, f1.RubyPackage ≠ "" → f1.RubyPackage = f2.RubyPackage →
      RubyPackage U f1 = RubyPackage U f2 ∧ RubyModules U f1 = RubyModules U f2 ∧
      ∀ (name : String) (parent : pgs.ParentEntity),
        RubyMessageType U { Name := name, File := f1, Parent := parent } =
          RubyMessageType U { Name := name, File := f2, Parent := parent }) ∧
    (∀ pkg : String,
      RubyPackage U { Package := pkg, RubyPackage := "" } =
        RubyPackage U { Package := pkg, RubyPackage := pkg } ∧
      RubyModules U { Package := pkg, RubyPackage := "" } =
        RubyModules U { Package := pkg, RubyPackage := pkg } ∧
      ∀ (name : String) (parent : pgs.ParentEntity),
        RubyMessageType U { Name := name, File := { Package := pkg, RubyPackage := "" },
                            Parent := parent } =
          RubyMessageType U { Name := name, File := { Package := pkg, RubyPackage := pkg },
                              Parent := parent }) := by
  refine ⟨rubyPackage_of_override U, rubyPackage_of_package U, fun f1 f2 h1 h12 => ?_, fun pkg => ?_⟩
  · have h : RubyPackage U f1 = RubyPackage U f2 := by
      rw [rubyPackage_of_override U f1 h1, rubyPackage_of_override U f2 (h12 ▸ h1), h12]
    exact ⟨h, rubyModules_congr U f1 f2 h, fun name parent => rubyMessageType_congr U name f1 f2 parent h⟩
  · have h : RubyPackage U { Package := pkg, RubyPackage := "" } =
        RubyPackage U { Package := pkg, RubyPackage := pkg } := by
      by_cases hp : pkg = ""
      · subst hp; rfl
      · rw [rubyPackage_of_package U _ rfl, rubyPackage_of_override U _ hp]
    exact ⟨h, rubyModules_congr U _ _ h, fun name parent => rubyMessageType_congr U name _ _ parent h⟩

/-- Witness of C11: two files with the override `Foo::Bar` and the package
names `foo.bar` and `other.pkg` have the same namespace, `Foo::Bar`. -/
theorem C11_namespace_source_witness :
    overrideFile.Package ≠ overrideFileOther.Package ∧
    RubyPackage unicode.plain overrideFile = "Foo::Bar" ∧
    RubyPackage unicode.plain overrideFile = RubyPackage unicode.plain overrideFileOther ∧
    RubyModules unicode.plain overrideFile = RubyModules unicode.plain overrideFileOther :=
  have h := (C11_namespace_source unicode.plain).2.2.1 overrideFile overrideFileOther
    (by decide) rfl
  ⟨by decide, (C11_namespace_source unicode.plain).1 overrideFile (by decide), h.1, h.2.1⟩

/-- C12: on a singular field the usage context has no effect: the getter, the
setter and the initializer contexts have the same outcome (the same string or
the same failure), so the three exported functions agree. -/
theorem C12_context_irrelevant_on_singular (U : unicode.Tables) (field : pgs.Field)
    (hmap : field.Type_.IsMap = false) (hrep : field.Type_.IsRepeated = false) :
    (∀ mt1 mt2 : methodType, rubyFieldType U field mt1 = rubyFieldType U field mt2) ∧
    RubyGetterFieldType U field = RubySetterFieldType U field ∧
    RubySetterFieldType U field = RubyInitializerFieldType U field ∧
    (∀ mt : methodType,
      rubyFieldType U field mt = rubyProtoTypeElem U field (asFieldType field.Type_)) := by
  have h : ∀ mt : methodType,
      rubyFieldType U field mt = rubyProtoTypeElem U field (asFieldType field.Type_) :=
    fun mt => fieldType_singular U field mt hmap hrep
  refine ⟨fun mt1 mt2 => by rw [h mt1, h mt2], ?_, ?_, h⟩
  · simp only [RubyGetterFieldType, RubySetterFieldType, h]
  · simp only [RubySetterFieldType, RubyInitializerFieldType, h]

/-- Witness of C12: the singular string field `title` resolves to `:string`
in the three contexts. -/
theorem C12_context_irrelevant_on_singular_witness :
    RubyGetterFieldType unicode.plain (singularField "title" pgs.StringT) = .ok ":string" ∧
    RubyGetterFieldType unicode.plain (singularField "title" pgs.StringT) =
      RubySetterFieldType unicode.plain (singularField "title" pgs.StringT) ∧
    RubySetterFieldType unicode.plain (singularField "title" pgs.StringT) =
      RubyInitializerFieldType unicode.plain (singularField "title" pgs.StringT) :=
  have h := C12_context_irrelevant_on_singular unicode.plain
    (singularField "title" pgs.StringT) rfl rfl
  ⟨rfl, h.2.1, h.2.2.1⟩

theorem loop_graph (U : unicode.Tables) (fuel : Nat) :
    ∀ (g : Graph) (names : List String) (outer : Nat) (ns : List String) (g1 : Graph),
      RubyMessageType.loop U fuel g names outer = some (ns, g1) → g1 = g := by
  induction fuel with
  | zero => intro g names outer ns g1 h; simp [RubyMessageType.loop] at h
  | succ k ih =>
    intro g names outer ns g1 h
    simp only [RubyMessageType.loop] at h
    cases hobj : g[outer]? with
    | none => simp [hobj] at h
    | some obj =>
      simp only [hobj] at h
      cases hp : obj.Parent with
      | file f =>
        simp only [hp, Option.some.injEq, Prod.mk.injEq] at h
        exact h.2.symm
      | message addr =>
        simp only [hp] at h
        exact ih g _ addr ns g1 h

theorem run_graph (U : unicode.Tables) (fuel : Nat) (g : Graph) (a : Nat) (s : String)
    (g1 : Graph) (h : RubyMessageType.run U fuel g a = some (s, g1)) : g1 = g := by
  simp only [RubyMessageType.run] at h
  cases hl : RubyMessageType.loop U fuel g [] a with
  | none => simp [hl] at h
  | some r =>
    obtain ⟨names, g2⟩ := r
    have hg := loop_graph U fuel g [] a names g2 hl
    subst hg
    simp only [hl] at h
    cases hobj : g2[a]? with
    | none => simp [hobj] at h
    | some obj =>
      simp only [hobj, Option.some.injEq, Prod.mk.injEq] at h
      exact h.2.symm

theorem loop_of_holds (U : unicode.Tables) (g : Graph) {r : ParentRef} {p : pgs.ParentEntity}
    (h : Holds g r p) :
    ∀ (a : Nat) (obj : Object), g[a]? = some obj → obj.Parent = r →
      ∀ (fuel : Nat) (names : List String), depth p + 1 ≤ fuel →
        RubyMessageType.loop U fuel g names a =
          some ((enclosing p).map (strings.Title U) ++ strings.Title U obj.Name :: names, g) := by
  induction h with
  | file f =>
    intro a obj ha hp fuel names hf
    obtain ⟨k, rfl⟩ : ∃ k, fuel = k + 1 := ⟨fuel - 1, by omega⟩
    simp [RubyMessageType.loop, ha, hp, enclosing]
  | @message addr obj2 p2 h1 _ ih =>
    intro a obj ha hp fuel names hf
    obtain ⟨k, rfl⟩ : ∃ k, fuel = k + 1 := ⟨fuel - 1, by omega⟩
    have hk : depth p2 + 1 ≤ k := by
      simp only [depth] at hf
      omega
    simp only [RubyMessageType.loop, ha, hp]
    rw [ih addr obj2 h1 rfl k _ hk]
    simp [enclosing]

theorem run_of_holds (U : unicode.Tables) (g : Graph) (a : Nat) (e : EntityWithParent)
    (h : holdsEntity g a e) (fuel : Nat) (hf : depth e.Parent + 1 ≤ fuel) :
    RubyMessageType.run U fuel g a = some (RubyMessageType U e, g) := by
  obtain ⟨obj, ha, hn, hfile, hp⟩ := h
  simp only [RubyMessageType.run, loop_of_holds U g hp a obj ha rfl fuel [] hf, ha,
    RubyMessageType, walk_eq, hn, hfile]

theorem holds_append (g extra : Graph) {r : ParentRef} {p : pgs.ParentEntity}
    (h : Holds g r p) : Holds (g ++ extra) r p := by
  induction h with
  | file f => exact Holds.file f
  | @message addr obj p2 h1 _ ih =>
    refine Holds.message ?_ ih
    have hlt : addr < g.length := (List.getElem?_eq_some.mp h1).1
    rw [List.getElem?_append_left hlt]
    exact h1

theorem holds_storeParent (p : pgs.ParentEntity) : Holds (storeParent p) (parentRef p) p := by
  induction p with
  | file f => exact Holds.file f
  | message name file parent ih =>
    have hget : (storeParent (.message name file parent))[(storeParent
        (.message name file parent)).length - 1]? =
        some { Name := name, File := file, Parent := parentRef parent } := by
      simp [storeParent, parentRef]
    exact Holds.message hget (holds_append _ _ ih)

theorem holds_store (e : EntityWithParent) :
    holdsEntity (store e) (storeParent e.Parent).length e := by
  refine ⟨{ Name := e.Name, File := e.File, Parent := parentRef e.Parent }, ?_, rfl, rfl, ?_⟩
  · simp [store]
  · exact holds_append _ _ (holds_storeParent e.Parent)

/-- C13: a call of `RubyMessageType` leaves the schema graph as it found it,
and a second call on the graph it leaves returns the same string; on every
graph that holds an entity, whatever else the graph holds, the call returns,
given fuel for the depth of the entity, the string that the entity's name, its
chain of enclosing names and its owning file fix; every entity is held by some
graph. -/
theorem C13_qualified_name_deterministic (U : unicode.Tables) :
    (∀ (fuel : Nat) (g : Graph) (a : Nat) (s : String) (g1 : Graph),
      RubyMessageType.run U fuel g a = some (s, g1) →
      g1 = g ∧ RubyMessageType.run U fuel g1 a = some (s, g1)) ∧
    (∀ (g : Graph) (a : Nat) (e : EntityWithParent), holdsEntity g a e →
      ∀ fuel : Nat, depth e.Parent + 1 ≤ fuel →
        RubyMessageType.run U fuel g a = some (RubyMessageType U e, g)) ∧
    (∀ e : EntityWithParent, holdsEntity (store e) (storeParent e.Parent).length e) ∧
    (∀ e1 e2 : EntityWithParent, e1.Name = e2.Name →
      enclosing e1.Parent = enclosing e2.Parent → e1.File = e2.File →
      RubyMessageType U e1 = RubyMessageType U e2) := by
  refine ⟨fun fuel g a s g1 h => ?_, fun g a e h fuel hf => run_of_holds U g a e h fuel hf,
    holds_store, fun e1 e2 hname hchain hfile => ?_⟩
  · have hg := run_graph U fuel g a s g1 h
    subst hg
    exact ⟨rfl, h⟩
  · rw [rubyMessageType_eq, rubyMessageType_eq, hname, hchain, hfile]

/-- Witness of C13: on the graph that holds `Foo` at address 0 and `Bar` at
address 1, the call for `Bar` returns `A::B::Foo::Bar` and the same graph,
and so does a second call. -/
theorem C13_qualified_name_deterministic_witness :
    RubyMessageType.run unicode.plain 2 (store msgBar) 1 =
      some ("A::B::Foo::Bar", store msgBar) ∧
    RubyMessageType.run unicode.plain 2 (store msgBar) 1 =
      some (RubyMessageType unicode.plain msgBar, store msgBar) ∧
    RubyMessageType unicode.plain msgBar = RubyMessageType unicode.plain msgBarOther :=
  have h := C13_qualified_name_deterministic unicode.plain
  ⟨(h.1 2 (store msgBar) 1 "A::B::Foo::Bar" (store msgBar) (by decide)).2,
   h.2.1 (store msgBar) 1 msgBar (h.2.2.1 msgBar) 2 (by decide),
   h.2.2.2 msgBar msgBarOther rfl rfl rfl⟩

/-- C16: for a file with an empty package name and an empty `ruby_package`
option, `RubyPackage` is the empty string, `RubyModules` is the one-element
list of the empty string, and a top-level entity named `Foo` resolves to
`::Foo`. -/
theorem C16_empty_namespace (U : unicode.Tables) (g : pgs.File) :
    RubyPackage U { Package := "", RubyPackage := "" } = "" ∧
    RubyModules U { Package := "", RubyPackage := "" } = [""] ∧
    RubyModules U { Package := "", RubyPackage := "" } ≠ [] ∧
    RubyMessageType U
      { Name := "Foo", File := { Package := "", RubyPackage := "" }, Parent := .file g } =
        "::Foo" :=
  ⟨rfl, rfl, fun h => List.noConfusion h, rfl⟩

/-! ## Lemmas on the outcomes of the field resolution -/

theorem append_ne_empty_left (a b : String) (h : a ≠ "") : a ++ b ≠ "" := by
  intro hab
  have hd := congrArg String.data hab
  rw [String.data_append] at hd
  have ha : a.data = [] := (List.append_eq_nil.mp hd).1
  exact h (String.ext ha)

theorem append_ne_empty_right (a b : String) (h : b ≠ "") : a ++ b ≠ "" := by
  intro hab
  have hd := congrArg String.data hab
  rw [String.data_append] at hd
  have hb : b.data = [] := (List.append_eq_nil.mp hd).2
  exact h (String.ext hb)

theorem rubyMessageType_ne_empty (U : unicode.Tables) (entity : EntityWithParent) :
    RubyMessageType U entity ≠ "" := by
  simp only [RubyMessageType]
  exact append_ne_empty_left _ _ (append_ne_empty_right _ _ (by decide))

theorem elem_supported_nonempty (U : unicode.Tables) (field : pgs.Field) (ft : FieldType)
    (he : hasEmbed ft) (hs : supportedType ft.ProtoType) :
    ∃ s, rubyProtoTypeElem U field ft = .ok s ∧ s ≠ "" := by
  rcases hs with h | h | h | h | h | h | h | h
  · exact ⟨_, elem_integer U field ft h, by decide⟩
  · exact ⟨_, elem_float U field ft (Or.inl h), by decide⟩
  · exact ⟨_, elem_float U field ft (Or.inr h), by decide⟩
  · exact ⟨_, elem_string U field ft (Or.inl h), by decide⟩
  · exact ⟨_, elem_string U field ft (Or.inr (Or.inl h)), by decide⟩
  · exact ⟨_, elem_boolean U field ft h, by decide⟩
  · exact ⟨_, elem_string U field ft (Or.inr (Or.inr h)), by decide⟩
  · cases hm : ft.Embed with
    | none => exact absurd hm (he h)
    | some m =>
      refine ⟨RubyMessageType U m, ?_, rubyMessageType_ne_empty U m⟩
      simp only [rubyProtoTypeElem, h, hm]
      rfl

theorem elem_nil (U : unicode.Tables) (field : pgs.Field) (ft : FieldType)
    (he : ¬ hasEmbed ft) : rubyProtoTypeElem U field ft = .error .nilDereference := by
  simp only [hasEmbed, Classical.not_imp, ne_eq, not_not] at he
  simp only [rubyProtoTypeElem, he.1, he.2]
  rfl

theorem supported_of_not_hasEmbed (ft : FieldType) (he : ¬ hasEmbed ft) :
    supportedType ft.ProtoType := by
  simp only [hasEmbed, Classical.not_imp] at he
  simp [supportedType, he.1]

theorem fieldType_outcome (U : unicode.Tables) (field : pgs.Field) (mt : methodType) :
    (failureCondition field.Type_ mt ∧
      rubyFieldType U field mt = .error (.logPanic (unsupportedMessage field.Name))) ∨
    (nilCondition field.Type_ mt ∧ rubyFieldType U field mt = .error .nilDereference) ∨
    (¬ failureCondition field.Type_ mt ∧ ¬ nilCondition field.Type_ mt ∧
      ∃ s, rubyFieldType U field mt = .ok s ∧ s ≠ "") := by
  cases hmap : field.Type_.IsMap with
  | true =>
    rw [fieldType_map U field mt hmap]
    by_cases hmt : mt = methodTypeSetter
    · refine Or.inr (Or.inr ⟨?_, ?_, "Google::Protobuf::Map", ?_, by decide⟩)
      · simp [failureCondition, hmap, hmt]
      · simp [nilCondition, hmap, hmt]
      · simp [rubyFieldMapType, hmt]
    · rw [mapType_read U field _ mt hmt]
      by_cases hk : supportedType field.Type_.Key.ProtoType
      · by_cases hke : hasEmbed field.Type_.Key
        · obtain ⟨K, hK, _⟩ := elem_supported_nonempty U field _ hke hk
          by_cases hv : supportedType field.Type_.Element.ProtoType
          · by_cases hve : hasEmbed field.Type_.Element
            · obtain ⟨V, hV, _⟩ := elem_supported_nonempty U field _ hve hv
              refine Or.inr (Or.inr ⟨?_, ?_, "T::Hash[" ++ K ++ ", " ++ V ++ "]", ?_, ?_⟩)
              · simp [failureCondition, hmap, hk, hv]
              · simp [nilCondition, embedsPresent, hmap, hke, hve]
              · rw [hK, hV]; rfl
              · exact append_ne_empty_left _ _ (append_ne_empty_left _ _
                  (append_ne_empty_left _ _ (append_ne_empty_left _ _ (by decide))))
            · refine Or.inr (Or.inl ⟨⟨Or.inr hmt, ?_⟩, ?_⟩)
              · simp [embedsPresent, hmap, hve]
              · rw [hK, elem_nil U field _ hve]; rfl
          · refine Or.inl ⟨Or.inr (Or.inr ⟨hmap, hmt, Or.inr hv⟩), ?_⟩
            rw [hK, elem_unsupported U field _ hv]; rfl
        · refine Or.inr (Or.inl ⟨⟨Or.inr hmt, ?_⟩, ?_⟩)
          · simp [embedsPresent, hmap, hke]
          · rw [elem_nil U field _ hke]; rfl
      · refine Or.inl ⟨Or.inr (Or.inr ⟨hmap, hmt, Or.inl hk⟩), ?_⟩
        rw [elem_unsupported U field _ hk]; rfl
  | false =>
    cases hrep : field.Type_.IsRepeated with
    | true =>
      rw [fieldType_repeated U field mt hmap hrep]
      by_cases hmt : mt = methodTypeSetter
      · refine Or.inr (Or.inr ⟨?_, ?_, "Google::Protobuf::RepeatedField", ?_, by decide⟩)
        · simp [failureCondition, hmap, hrep, hmt]
        · simp [nilCondition, hmap, hrep, hmt]
        · simp [rubyFieldRepeatedType, hmt]
      · rw [repeatedType_read U field _ mt hmt]
        by_cases hv : supportedType field.Type_.Element.ProtoType
        · by_cases hve : hasEmbed field.Type_.Element
          · obtain ⟨V, hV, _⟩ := elem_supported_nonempty U field _ hve hv
            refine Or.inr (Or.inr ⟨?_, ?_, "T::Array[" ++ V ++ "]", ?_, ?_⟩)
            · simp [failureCondition, hmap, hrep, hv]
            · simp [nilCondition, embedsPresent, hmap, hrep, hve]
            · rw [hV]; rfl
            · exact append_ne_empty_left _ _ (append_ne_empty_left _ _ (by decide))
          · refine Or.inr (Or.inl ⟨⟨Or.inr hmt, ?_⟩, ?_⟩)
            · simp [embedsPresent, hmap, hrep, hve]
            · rw [elem_nil U field _ hve]; rfl
        · refine Or.inl ⟨Or.inr (Or.inl ⟨hmap, hrep, hmt, hv⟩), ?_⟩
          rw [elem_unsupported U field _ hv]; rfl
    | false =>
      rw [fieldType_singular U field mt hmap hrep]
      by_cases hs : supportedType field.Type_.ProtoType
      · by_cases hse : hasEmbed (asFieldType field.Type_)
        · obtain ⟨s, hs1, hs2⟩ :=
            elem_supported_nonempty U field (asFieldType field.Type_) hse hs
          refine Or.inr (Or.inr ⟨by simp [failureCondition, hmap, hrep, hs], ?_, s, hs1, hs2⟩)
          have hse2 : hasEmbed { ProtoType := field.Type_.ProtoType, Embed := field.Type_.Embed } :=
            hse
          simp [nilCondition, embedsPresent, hmap, hrep, hse2]
        · refine Or.inr (Or.inl ⟨⟨Or.inl ⟨hmap, hrep⟩, ?_⟩, elem_nil U field _ hse⟩)
          have hse2 : ¬ hasEmbed { ProtoType := field.Type_.ProtoType, Embed := field.Type_.Embed } :=
            hse
          simp [embedsPresent, hmap, hrep, hse2]
      · refine Or.inl ⟨Or.inl ⟨hmap, hrep, hs⟩, ?_⟩
        exact elem_unsupported U field (asFieldType field.Type_) hs

/-! ## Claim on the exact failure condition -/

/-- Counterexample to C14 as stated: the singular message-typed field `owner`
with no embedded message panics in the getter context although it meets none
of the three stated conditions, and its panic is not the stated message; and
the panic message of the repeated group field `legacy` is not the stated text
followed by the name of the field, since a line feed follows the name. -/
theorem C14_panics_outside_condition :
    (¬ failureCondition ownerField.Type_ methodTypeGetter ∧
      rubyFieldType unicode.plain ownerField methodTypeGetter = .error .nilDereference ∧
      rubyFieldType unicode.plain ownerField methodTypeGetter ≠
        .error (.logPanic ("Unsupported field type for field: " ++ ownerField.Name))) ∧
    (failureCondition legacyGroups.Type_ methodTypeGetter ∧
      rubyFieldType unicode.plain legacyGroups methodTypeGetter =
        .error (.logPanic "Unsupported field type for field: legacy\n") ∧
      rubyFieldType unicode.plain legacyGroups methodTypeGetter ≠
        .error (.logPanic ("Unsupported field type for field: " ++ legacyGroups.Name))) := by
  have ho : rubyFieldType unicode.plain ownerField methodTypeGetter = .error .nilDereference :=
    rfl
  have hl : rubyFieldType unicode.plain legacyGroups methodTypeGetter =
      .error (.logPanic "Unsupported field type for field: legacy\n") := rfl
  refine ⟨⟨?_, ho, fun h => ?_⟩, ⟨?_, hl, fun h => ?_⟩⟩
  · simp only [failureCondition, ownerField, singularField]
    decide
  · rw [ho] at h
    cases h
  · simp only [failureCondition, legacyGroups, repeatedField, scalarElem]
    decide
  · rw [hl] at h
    exact absurd (Panic.logPanic.inj (Except.error.inj h)) (by decide)

/-- C14, amended: for every field and usage context, `rubyFieldType` panics
exactly when the field is singular of unsupported type, or repeated with an
unsupported element type outside the setter context, or a map with an
unsupported key or value type outside the setter context, or a part that the
call reads is message-typed without its embedded message; a panic is either
the one whose message is `Unsupported field type for field: `, the name of the
field and a line feed, or, in the last case only, a nil dereference; when
every message-typed part carries its embedded message the panic occurs
exactly under the three type conditions and always has that message; in every
other case a non-empty string is returned. -/
theorem C14_exact_failure_condition (U : unicode.Tables) (field : pgs.Field) (mt : methodType) :
    ((∃ p, rubyFieldType U field mt = .error p) ↔
      failureCondition field.Type_ mt ∨ nilCondition field.Type_ mt) ∧
    (∀ p, rubyFieldType U field mt = .error p →
      p = .logPanic ("Unsupported field type for field: " ++ field.Name ++ "\n") ∨
      (p = .nilDereference ∧ nilCondition field.Type_ mt)) ∧
    (embedsPresent field.Type_ →
      ((∃ p, rubyFieldType U field mt = .error p) ↔ failureCondition field.Type_ mt) ∧
      (∀ p, rubyFieldType U field mt = .error p →
        p = .logPanic ("Unsupported field type for field: " ++ field.Name ++ "\n"))) ∧
    (¬ (failureCondition field.Type_ mt ∨ nilCondition field.Type_ mt) →
      ∃ s, rubyFieldType U field mt = .ok s ∧ s ≠ "") := by
  rcases fieldType_outcome U field mt with ⟨hf, he⟩ | ⟨hn, he⟩ | ⟨hnf, hnn, s, hs, hne⟩
  · refine ⟨⟨fun _ => Or.inl hf, fun _ => ⟨_, he⟩⟩, fun p hp => ?_, fun _ => ⟨⟨fun _ => hf,
      fun _ => ⟨_, he⟩⟩, fun p hp => ?_⟩, fun h => absurd (Or.inl hf) h⟩
    · rw [he] at hp
      exact Or.inl (Except.error.inj hp).symm
    · rw [he] at hp
      exact (Except.error.inj hp).symm
  · refine ⟨⟨fun _ => Or.inr hn, fun _ => ⟨_, he⟩⟩, fun p hp => ?_, fun hwf => absurd hwf hn.2,
      fun h => absurd (Or.inr hn) h⟩
    rw [he] at hp
    exact Or.inr ⟨(Except.error.inj hp).symm, hn⟩
  · have hno : ∀ p, rubyFieldType U field mt ≠ .error p := by
      intro p hp
      rw [hs] at hp
      cases hp
    refine ⟨⟨fun ⟨p, hp⟩ => absurd hp (hno p), fun h => ?_⟩, fun p hp => absurd hp (hno p),
      fun _ => ⟨⟨fun ⟨p, hp⟩ => absurd hp (hno p), fun hf => absurd hf hnf⟩,
        fun p hp => absurd hp (hno p)⟩, fun _ => ⟨s, hs, hne⟩⟩
    rcases h with h | h
    · exact absurd h hnf
    · exact absurd h hnn

/-- Witness of C14, amended: the repeated group field `legacy` carries its
embedded messages, meets the failure condition in the getter context and
panics with the message naming it; the field `owner` panics on a nil
dereference. -/
theorem C14_exact_failure_condition_witness :
    embedsPresent legacyGroups.Type_ ∧
    failureCondition legacyGroups.Type_ methodTypeGetter ∧
    rubyFieldType unicode.plain legacyGroups methodTypeGetter =
      .error (.logPanic "Unsupported field type for field: legacy\n") ∧
    nilCondition ownerField.Type_ methodTypeGetter :=
  have hwf : embedsPresent legacyGroups.Type_ := by
    simp only [embedsPresent, legacyGroups, repeatedField, hasEmbed, scalarElem]
    decide
  have hg := C14_exact_failure_condition unicode.plain legacyGroups methodTypeGetter
  have ho := C14_exact_failure_condition unicode.plain ownerField methodTypeGetter
  have hn : nilCondition ownerField.Type_ methodTypeGetter := by
    rcases ho.2.1 .nilDereference rfl with h | h
    · cases h
    · exact h.2
  ⟨hwf, (hg.2.2.1 hwf).1.mp ⟨_, rfl⟩, rfl, hn⟩

/-! ## Lemmas on the chain of modules -/

theorem splitRunes_ne_nil (sep : List Char) (l : List Char) :
    ∀ (skip : Nat) (cur : List Char), strings.splitRunes sep l skip cur ≠ [] := by
  induction l with
  | nil => intro skip cur; simp [strings.splitRunes]
  | cons c cs ih =>
    intro skip cur
    cases skip with
    | zero =>
      simp only [strings.splitRunes]
      split
      · exact List.cons_ne_nil _ _
      · exact ih 0 _
    | succ k => simpa [strings.splitRunes] using ih k cur

theorem split_ne_nil (s sep : String) : strings.Split s sep ≠ [] := by
  simp only [strings.Split, ne_eq, List.map_eq_nil_iff]
  exact splitRunes_ne_nil _ _ _ _

theorem join_append_singleton (l : List String) (x sep : String) (hl : l ≠ []) :
    strings.Join (l ++ [x]) sep = strings.Join l sep ++ sep ++ x := by
  cases l with
  | nil => exact absurd rfl hl
  | cons e es => simp [strings.Join, List.foldl_append]

theorem split_join_runes (l : List Char) :
    (∀ cur : List Char,
      (strings.Join ((strings.splitRunes [':', ':'] l 0 cur).map String.mk) "::").data = cur ++ l) ∧
    (∀ cur : List Char,
      (strings.Join ((strings.splitRunes [':', ':'] l 1 cur).map String.mk) "::").data =
        cur ++ l.tail) := by
  induction l with
  | nil => exact ⟨fun cur => by simp [strings.splitRunes, strings.Join],
      fun cur => by simp [strings.splitRunes, strings.Join]⟩
  | cons c cs ih =>
    refine ⟨fun cur => ?_, fun cur => ?_⟩
    · by_cases hp : [':', ':'].isPrefixOf (c :: cs) = true
      · simp only [strings.splitRunes, hp, if_true]
        obtain ⟨y, rest, hy⟩ := List.exists_cons_of_ne_nil
          (splitRunes_ne_nil [':', ':'] cs ([':', ':'].length - 1) [])
        have h2 := ih.2 []
        simp only [List.length_cons, List.length_nil, Nat.add_one_sub_one] at hy
        rw [hy] at h2
        have hlen : [':', ':'].length - 1 = 1 := rfl
        rw [hlen, hy]
        simp only [List.map_cons, join_cons_cons, String.data_append]
        simp only [List.map_cons] at h2
        rw [h2]
        simp only [List.isPrefixOf, Bool.and_eq_true, beq_iff_eq] at hp
        obtain ⟨h1, h3⟩ := hp
        cases cs with
        | nil => simp [List.isPrefixOf] at h3
        | cons d ds =>
          simp only [List.isPrefixOf, Bool.and_eq_true, beq_iff_eq] at h3
          rw [← h1, ← h3.1]
          simp
      · simp only [strings.splitRunes, hp, Bool.false_eq_true, if_false]
        rw [ih.1 (cur ++ [c])]
        simp
    · simpa [strings.splitRunes] using ih.1 cur

theorem join_split_colons (p : String) : strings.Join (strings.Split p "::") "::" = p := by
  apply String.ext
  have h := (split_join_runes p.data).1 []
  simpa [strings.Split] using h

theorem rubyModules_get (U : unicode.Tables) (file : pgs.File) (i : Nat) :
    (RubyModules U file)[i]? =
      if i < (strings.Split (RubyPackage U file) "::").length then
        some (strings.Join ((strings.Split (RubyPackage U file) "::").take (i + 1)) "::")
      else none := by
  rw [rubyModules_eq_map]
  by_cases h : i < (strings.Split (RubyPackage U file) "::").length
  · simp [h, List.getElem?_map, List.getElem?_range]
  · simp [h, List.getElem?_map]
    omega

theorem rubyModules_length (U : unicode.Tables) (file : pgs.File) :
    (RubyModules U file).length = (strings.Split (RubyPackage U file) "::").length := by
  rw [rubyModules_eq_map]; simp

theorem rubyModules_last (U : unicode.Tables) (file : pgs.File) :
    (RubyModules U file).getLast? = some (RubyPackage U file) := by
  have hn : (strings.Split (RubyPackage U file) "::").length ≠ 0 := by
    intro h
    exact split_ne_nil _ _ (List.length_eq_zero.mp h)
  rw [List.getLast?_eq_getElem?, rubyModules_get, rubyModules_length]
  have h1 : (strings.Split (RubyPackage U file) "::").length - 1 <
      (strings.Split (RubyPackage U file) "::").length := by omega
  have h2 : (strings.Split (RubyPackage U file) "::").length - 1 + 1 =
      (strings.Split (RubyPackage U file) "::").length := by omega
  simp only [h1, if_true, h2, List.take_length, join_split_colons]

/-! ## Claim on the chain of modules -/

/-- C15: `RubyModules` is a non-empty list with one element for each
`::`-separated component of `RubyPackage`; its first element is the first
component, its last element is `RubyPackage` itself, and each next element is
the element before it, then `::`, then the next component, so that each
element is a strict prefix of the next; the namespace in front of every
`RubyMessageType` result for an entity of the file is the last element. -/
theorem C15_modules_chain (U : unicode.Tables) (file : pgs.File) :
    RubyModules U file ≠ [] ∧
    (RubyModules U file).length = (strings.Split (RubyPackage U file) "::").length ∧
    (RubyModules U file).getLast? = some (RubyPackage U file) ∧
    (RubyModules U file)[0]? = (strings.Split (RubyPackage U file) "::")[0]? ∧
    (∀ (i : Nat) (m c : String), (RubyModules U file)[i]? = some m →
      (strings.Split (RubyPackage U file) "::")[i + 1]? = some c →
      (RubyModules U file)[i + 1]? = some (m ++ "::" ++ c) ∧
      m.data <+: (m ++ "::" ++ c).data ∧ m.length < (m ++ "::" ++ c).length) ∧
    (∀ (name : String) (parent : pgs.ParentEntity) (last : String),
      (RubyModules U file).getLast? = some last →
      RubyMessageType U { Name := name, File := file, Parent := parent } =
        last ++ "::" ++ joinCap U (enclosing parent ++ [name])) := by
  have hne : strings.Split (RubyPackage U file) "::" ≠ [] := split_ne_nil _ _
  refine ⟨?_, rubyModules_length U file, rubyModules_last U file, ?_, ?_, ?_⟩
  · intro h
    have hl := rubyModules_length U file
    rw [h] at hl
    exact hne (List.length_eq_zero.mp hl.symm)
  · rw [rubyModules_get]
    obtain ⟨c0, rest, hc⟩ := List.exists_cons_of_ne_nil hne
    rw [hc]
    simp [strings.Join]
  · intro i m c hm hc
    have hi : i + 1 < (strings.Split (RubyPackage U file) "::").length :=
      (List.getElem?_eq_some.mp hc).1
    have hi0 : i < (strings.Split (RubyPackage U file) "::").length := by omega
    rw [rubyModules_get] at hm
    simp only [hi0, if_true, Option.some.injEq] at hm
    have htake : (strings.Split (RubyPackage U file) "::").take (i + 1 + 1) =
        (strings.Split (RubyPackage U file) "::").take (i + 1) ++ [c] := by
      rw [List.take_succ, hc]; rfl
    have hnonempty : (strings.Split (RubyPackage U file) "::").take (i + 1) ≠ [] := by
      intro h
      have hl := congrArg List.length h
      simp only [List.length_take, List.length_nil] at hl
      omega
    refine ⟨?_, ?_, ?_⟩
    · rw [rubyModules_get]
      simp only [hi, if_true, htake]
      rw [join_append_singleton _ _ _ hnonempty, hm]
    · simp only [String.data_append, List.append_assoc]
      exact List.prefix_append _ _
    · simp only [String.length_append]
      have h2 : ("::" : String).length = 2 := rfl
      omega
  · intro name parent last hlast
    rw [rubyModules_last] at hlast
    rw [← Option.some.inj hlast]
    exact rubyMessageType_eq U { Name := name, File := file, Parent := parent }

/-- Witness of C15: for the package `a.b.c` the second module `A::B` is the
first module `A`, then `::`, then the second component `B`, and `Bar` in `Foo`
resolves under the last module of its file. -/
theorem C15_modules_chain_witness :
    (RubyModules unicode.plain { Package := "a.b.c", RubyPackage := "" })[1]? = some "A::B" ∧
    RubyMessageType unicode.plain msgBar = "A::B" ++ "::" ++ "Foo::Bar" :=
  have h := C15_modules_chain unicode.plain { Package := "a.b.c", RubyPackage := "" }
  have h2 := C15_modules_chain unicode.plain fileAB
  ⟨(h.2.2.2.2.1 0 "A" "B" (by decide) (by decide)).1,
   h2.2.2.2.2.2 "Bar" (.message "Foo" fileAB (.file fileAB)) "A::B" (by decide)⟩
